import Mathlib

/-!
# DFTWS winner selection: a shallow embedding of `main.go`

The Go program evaluates the fairness of the DFTWS winner selection.  This file
embeds the functions of `main.go` that take part in one election round and in
one trial of the monte-carlo harness, and proves properties about them.

Conventions of the embedding.

* A Go `byte` is a natural number below 256; a Go `string` and a Go `[]byte`
  are lists of bytes (`GoString`).  String comparison `<` is `stringLess`.
* A Go panic is an `Except.error` carrying a `Panic` value.
* Library code the program calls is embedded next to the program:
  `hex.EncodeToString`, `strconv.ParseInt`, the legacy Keccak-256 sponge and
  the ASCII path of `strings.ToLower` are written out; the Unicode path of
  `strings.ToLower`, `sort.Slice` and the private-key `Sign` method are fields
  of `GoLib`, so every theorem holds for every implementation of them (where a
  theorem needs the documented contract of `sort.Slice` it says so).
-/

namespace Dftws

/-! ## Bytes and strings -/

/-- A Go string: a sequence of bytes, each a number below 256. -/
abbrev GoString := List Nat

/-- A Go byte slice. -/
abbrev Bytes := List Nat

/-- The bytes of an ASCII literal, used to write concrete identifiers. -/
def ascii (s : String) : GoString := s.toList.map Char.toNat

/-- Go's `<` on strings: bytewise lexicographic comparison. -/
def stringLess : GoString → GoString → Bool
  | [], [] => false
  | [], _ :: _ => true
  | _ :: _, [] => false
  | a :: as, b :: bs =>
    if a < b then true else if b < a then false else stringLess as bs

/-- The loop at the top of `strings.ToLower`: no byte is `>= utf8.RuneSelf`. -/
def isASCII (s : GoString) : Bool := s.all (fun c => decide (c < 0x80))

/-- The loop at the top of `strings.ToLower`: some byte is in `'A'..'Z'`. -/
def hasUpper (s : GoString) : Bool := s.any (fun c => decide (0x41 ≤ c ∧ c ≤ 0x5A))

/-- The byte mapping of the ASCII path of `strings.ToLower`:
`if 'A' <= c && c <= 'Z' { c += 'a' - 'A' }`. -/
def lowerByte (c : Nat) : Nat := if 0x41 ≤ c ∧ c ≤ 0x5A then c + 0x20 else c

/-- Go's `strings.ToLower`.  ASCII-only strings take the fast path of the
library; any other string is handed to `unicodeLower`, which stands for
`strings.Map(unicode.ToLower, s)`. -/
def ToLower (unicodeLower : GoString → GoString) (s : GoString) : GoString :=
  if isASCII s then
    if !hasUpper s then s else s.map lowerByte
  else unicodeLower s

/-! ## `encoding/hex` and `strconv` -/

/-- One entry of `hextable = "0123456789abcdef"`. -/
def hexChar (n : Nat) : Nat := if n < 10 then 0x30 + n else 0x57 + n

/-- Go's `hex.EncodeToString`: two characters per byte, `hextable[v>>4]` then
`hextable[v&0x0f]`. -/
def EncodeToString (src : Bytes) : GoString :=
  src.flatMap (fun v => [hexChar (v / 16), hexChar (v % 16)])

/-- The error kinds of `strconv.NumError`. -/
inductive NumError where
  | ErrSyntax
  | ErrRange
  | ErrBase
  deriving DecidableEq, Repr

/-- The digit switch inside `strconv.ParseUint`: `'0'..'9'` give `c - '0'`,
letters give `lower(c) - 'a' + 10` with `lower(c) = c | ('x' - 'X')`. -/
def digitVal (c : Nat) : Option Nat :=
  if 0x30 ≤ c ∧ c ≤ 0x39 then some (c - 0x30)
  else if 0x61 ≤ (c ||| 0x20) ∧ (c ||| 0x20) ≤ 0x7A then some ((c ||| 0x20) - 0x61 + 10)
  else none

/-- The digit loop of `strconv.ParseUint` for an explicit base, on `uint64`
arithmetic: `cutoff = maxUint64/base + 1`, `maxVal = 1<<bitSize - 1`. -/
def parseUintLoop (base bitSize : Nat) : Bytes → Nat → Except NumError Nat
  | [], n => .ok n
  | c :: rest, n =>
    match digitVal c with
    | none => .error .ErrSyntax
    | some d =>
      if d ≥ base then .error .ErrSyntax
      else if n ≥ (2 ^ 64 - 1) / base + 1 then .error .ErrRange
      else
        let nb := (n * base) % 2 ^ 64
        let n1 := (nb + d) % 2 ^ 64
        if n1 < nb ∨ n1 > 2 ^ bitSize - 1 then .error .ErrRange
        else parseUintLoop base bitSize rest n1

/-- Go's `strconv.ParseUint` for a base in `2..36` and a bit size in `1..64`
(the program passes 16 and 64; base 0, the prefix-detecting mode, is not
embedded and is reported as a base error). -/
def ParseUint (s : GoString) (base bitSize : Nat) : Except NumError Nat :=
  if s = [] then .error .ErrSyntax
  else if 2 ≤ base ∧ base ≤ 36 then parseUintLoop base bitSize s 0
  else .error .ErrBase

/-- Go's `strconv.ParseInt`: an optional sign, then `ParseUint`, then the
signed range check against `cutoff = 1 << (bitSize-1)`. -/
def ParseInt (s : GoString) (base bitSize : Nat) : Except NumError Int :=
  match s with
  | [] => .error .ErrSyntax
  | c :: rest =>
    let neg := decide (c = 0x2D)
    let body := if c = 0x2B ∨ c = 0x2D then rest else s
    match ParseUint body base bitSize with
    | .error e => .error e
    | .ok un =>
      let cutoff := 2 ^ (bitSize - 1)
      if !neg && decide (un ≥ cutoff) then .error .ErrRange
      else if neg && decide (un > cutoff) then .error .ErrRange
      else .ok (if neg then - (un : Int) else (un : Int))

/-! ## Legacy Keccak-256 (`sha3.NewLegacyKeccak256`) -/

/-- All ones on 64 bits. -/
def mask64 : Nat := 2 ^ 64 - 1

/-- Rotate a 64-bit lane left. -/
def rotl64 (x n : Nat) : Nat :=
  ((x <<< n) ||| (x >>> (64 - n))) &&& mask64

/-- The 24 round constants of Keccak-f[1600]. -/
def roundConstants : List Nat :=
  [0x0000000000000001, 0x0000000000008082, 0x800000000000808A, 0x8000000080008000,
   0x000000000000808B, 0x0000000080000001, 0x8000000080008081, 0x8000000000008009,
   0x000000000000008A, 0x0000000000000088, 0x0000000080008009, 0x000000008000000A,
   0x000000008000808B, 0x800000000000008B, 0x8000000000008089, 0x8000000000008003,
   0x8000000000008002, 0x8000000000000080, 0x000000000000800A, 0x800000008000000A,
   0x8000000080008081, 0x8000000000008080, 0x0000000080000001, 0x8000000080008008]

/-- The rotation offsets of the rho step, lane `(x, y)` at position `x + 5*y`. -/
def rotationOffsets : List Nat :=
  [0, 1, 62, 28, 27,
   36, 44, 6, 55, 20,
   3, 10, 43, 25, 39,
   41, 45, 15, 21, 8,
   18, 2, 61, 56, 14]

/-- Lane `(x, y)` of a state of 25 lanes, coordinates taken modulo 5. -/
def lane (st : List Nat) (x y : Nat) : Nat := st.getD (x % 5 + 5 * (y % 5)) 0

/-- The theta step. -/
def theta (st : List Nat) : List Nat :=
  let c := fun x => lane st x 0 ^^^ lane st x 1 ^^^ lane st x 2 ^^^ lane st x 3 ^^^ lane st x 4
  let d := fun x => c (x + 4) ^^^ rotl64 (c (x + 1)) 1
  (List.range 25).map (fun i => st.getD i 0 ^^^ d (i % 5))

/-- The rho and pi steps: output lane `(X, Y)` is input lane `(x, y)` rotated,
where `y = X` and `2x + 3y = Y` modulo 5. -/
def rhoPi (st : List Nat) : List Nat :=
  (List.range 25).map (fun i =>
    let x := (i % 5 + 3 * (i / 5)) % 5
    let y := i % 5
    rotl64 (lane st x y) (rotationOffsets.getD (x + 5 * y) 0))

/-- The chi step. -/
def chi (st : List Nat) : List Nat :=
  (List.range 25).map (fun i =>
    lane st (i % 5) (i / 5) ^^^
      ((lane st (i % 5 + 1) (i / 5) ^^^ mask64) &&& lane st (i % 5 + 2) (i / 5)))

/-- The iota step: the round constant is added to lane `(0, 0)`. -/
def iota (rc : Nat) : List Nat → List Nat
  | [] => []
  | a :: rest => (a ^^^ rc) :: rest

/-- One round of the permutation. -/
def keccakRound (st : List Nat) (rc : Nat) : List Nat :=
  iota rc (chi (rhoPi (theta st)))

/-- The permutation Keccak-f[1600]. -/
def keccakF1600 (st : List Nat) : List Nat :=
  roundConstants.foldl keccakRound st

/-- Xor a value into the lane at a position. -/
def xorAt : List Nat → Nat → Nat → List Nat
  | [], _, _ => []
  | a :: rest, 0, v => (a ^^^ v) :: rest
  | a :: rest, i + 1, v => a :: xorAt rest i v

/-- Xor one byte into the state at a byte offset (lanes are little-endian). -/
def xorByte (st : List Nat) (pos : Nat) (b : Nat) : List Nat :=
  xorAt st (pos / 8) ((b % 256) <<< (8 * (pos % 8)))

/-- The rate of Keccak-256 in bytes. -/
def rate : Nat := 136

/-- Absorb one byte; the state is permuted whenever a block is complete. -/
def absorbByte (s : List Nat × Nat) (b : Nat) : List Nat × Nat :=
  let st := xorByte s.1 s.2 b
  if s.2 + 1 = rate then (keccakF1600 st, 0) else (st, s.2 + 1)

/-- The eight bytes of a lane, little-endian. -/
def laneBytes (v : Nat) : Bytes :=
  (List.range 8).map (fun k => (v >>> (8 * k)) % 256)

/-- Legacy Keccak-256: absorb the input, pad with the domain byte `0x01` and
the final bit `0x80`, permute, and output the first 32 bytes of the state. -/
def keccak256 (input : Bytes) : Bytes :=
  let s := input.foldl absorbByte (List.replicate 25 0, 0)
  let st := xorByte (xorByte s.1 s.2 0x01) (rate - 1) 0x80
  let out := keccakF1600 st
  laneBytes (out.getD 0 0) ++ laneBytes (out.getD 1 0) ++
    laneBytes (out.getD 2 0) ++ laneBytes (out.getD 3 0)

/-! ## The data model of `main.go` -/

/-- The ways the embedded code can panic. -/
inductive Panic where
  | emptySecret
  | nilHashBytes
  | sliceBounds
  | parseError (e : NumError)
  | divideByZero
  | indexOutOfRange
  | signError
  deriving DecidableEq, Repr

/-- The struct `Hash`; `none` is the nil slice. -/
structure Hash where
  Bytes : Option (Bytes)
  deriving DecidableEq, Repr

/-- The struct `MinerCommitment`. -/
structure MinerCommitment where
  OriginalSenderNodeID : GoString
  HashCommit : Hash
  SigCommit : Bytes
  deriving DecidableEq, Repr

/-- The struct `ActiveMiner`. -/
structure ActiveMiner where
  Commitment : MinerCommitment
  deriving DecidableEq, Repr

/-- The struct `Miner`; the keys are kept as their raw bytes. -/
structure Miner where
  NodeID : GoString
  Pub : Bytes
  Priv : Bytes
  deriving DecidableEq, Repr

/-- The library functions that are not written out in this file. -/
structure GoLib where
  /-- `strings.Map(unicode.ToLower, s)`, reached for strings with a non-ASCII byte. -/
  unicodeLower : GoString → GoString
  /-- `sort.Slice` on a string slice, given the comparison of two elements. -/
  sortSlice : (GoString → GoString → Bool) → List GoString → List GoString
  /-- `Priv.Sign(msg)`; `none` is a returned error. -/
  Sign : Bytes → Bytes → Option (Bytes)

/-- A comparison that `sort.Slice` accepts: a strict weak ordering. -/
def StrictWeakOrder {α : Type} (less : α → α → Bool) : Prop :=
  (∀ a, less a a = false) ∧
  (∀ a b c, less a b = true → less b c = true → less a c = true) ∧
  (∀ a b c, less a b = false → less b c = false → less a c = false)

/-- The documented contract of `sort.Slice`: the result is a rearrangement of
the slice and, for a strict weak ordering, no element is less than an earlier
one.  Nothing is promised about the order of equal elements. -/
def SortContract (sortSlice : (GoString → GoString → Bool) → List GoString → List GoString) :
    Prop :=
  ∀ less xs, (sortSlice less xs).Perm xs ∧
    (StrictWeakOrder less → (sortSlice less xs).Pairwise (fun a b => less b a = false))

/-- The inner loop of `insertionSortLessFunc`: the new element moves left past
every neighbour it is less than.  The sorted part is given nearest neighbour
first. -/
def sinkLeft {α : Type} (less : α → α → Bool) (x : α) : List α → List α
  | [] => [x]
  | y :: rest => if less x y then y :: sinkLeft less x rest else x :: y :: rest

/-- Go's `insertionSortLessFunc`, the algorithm `sort.Slice` runs on short
slices (in every release for fewer than 7 elements). -/
def insertionSortLessFunc {α : Type} (less : α → α → Bool) (data : List α) : List α :=
  (data.foldl (fun sortedRev x => sinkLeft less x sortedRev) []).reverse

/-! ## `Hash` -/

/-- The constructor `NewHash`. -/
def NewHash (input : GoString) : Hash := ⟨some (keccak256 input)⟩

/-- The method `Hash.GetString`. -/
def Hash.GetString (h : Hash) : Except Panic GoString :=
  match h.Bytes with
  | none => .error .nilHashBytes
  | some bs => .ok (EncodeToString bs)

/-! ## `WinnerSelection` -/

/-- The comparison closure handed to `sort.Slice`. -/
def lessNodeID (L : GoLib) (a b : GoString) : Bool :=
  stringLess (ToLower L.unicodeLower a) (ToLower L.unicodeLower b)

/-- Step 0.1 and 0.2: the identifiers, sorted in place. -/
def sortedNodeIDStrings (L : GoLib) (inputEligibleMiners : List ActiveMiner) : List GoString :=
  L.sortSlice (lessNodeID L) (inputEligibleMiners.map (fun m => m.Commitment.OriginalSenderNodeID))

/-- The body of the inner loop of step 0.3. -/
def rebuildStep (n : GoString) (acc : List ActiveMiner × GoString) (o : ActiveMiner) :
    List ActiveMiner × GoString :=
  if n = o.Commitment.OriginalSenderNodeID then
    (acc.1 ++ [o], acc.2 ++ o.Commitment.SigCommit)
  else acc

/-- Step 0.3: the nested loops that rebuild `eligibleMinersSorted` and
concatenate the signatures into `c`. -/
def rebuild (nodeIDStrings : List GoString) (inputEligibleMiners : List ActiveMiner) :
    List ActiveMiner × GoString :=
  nodeIDStrings.foldl (fun acc n => inputEligibleMiners.foldl (rebuildStep n) acc) ([], [])

/-- The slice `eligibleMinersSorted` of `WinnerSelection`. -/
def eligibleMinersSorted (L : GoLib) (inputEligibleMiners : List ActiveMiner) :
    List ActiveMiner :=
  (rebuild (sortedNodeIDStrings L inputEligibleMiners) inputEligibleMiners).1

/-- The string `c` of `WinnerSelection`. -/
def concatenatedSigs (L : GoLib) (inputEligibleMiners : List ActiveMiner) : GoString :=
  (rebuild (sortedNodeIDStrings L inputEligibleMiners) inputEligibleMiners).2

/-- Steps 4 and 5: the index computation and the slice access. -/
def selectWinner (sorted : List ActiveMiner) (aDec : Int) : Except Panic GoString :=
  if sorted.length = 0 then .error .divideByZero
  else
    let winnerIndex := Int.tmod aDec (sorted.length : Int)
    if winnerIndex < 0 then .error .indexOutOfRange
    else
      match sorted[winnerIndex.toNat]? with
      | none => .error .indexOutOfRange
      | some m => .ok m.Commitment.OriginalSenderNodeID

/-- Steps 2 and 3: `NewHash(..).GetString()`, the slice `a[:15]` and
`strconv.ParseInt(a[:15], 16, 64)` with its `panic(err)`. -/
def hashToNumber (input : GoString) : Except Panic Int :=
  match (NewHash input).GetString with
  | .error e => .error e
  | .ok a =>
    if a.length < 15 then .error .sliceBounds
    else
      match ParseInt (a.take 15) 16 64 with
      | .error e => .error (.parseError e)
      | .ok aDec => .ok aDec

/-- The function `WinnerSelection`. -/
def WinnerSelection (L : GoLib) (inputEligibleMiners : List ActiveMiner)
    (raCommitSecret : GoString) : Except Panic GoString :=
  if raCommitSecret = [] then .error .emptySecret
  else
    match hashToNumber (concatenatedSigs L inputEligibleMiners ++ raCommitSecret) with
    | .error e => .error e
    | .ok aDec => selectWinner (eligibleMinersSorted L inputEligibleMiners) aDec

/-! ## The simulation harness -/

/-- The constructor `NewActiveMiner`. -/
def NewActiveMiner (commitment : MinerCommitment) : ActiveMiner := ⟨commitment⟩

/-- The function `GetMinerCommitment`. -/
def GetMinerCommitment (L : GoLib) (solutionHash : Hash) (miner : Miner) :
    Except Panic ActiveMiner :=
  match solutionHash.GetString with
  | .error e => .error e
  | .ok s =>
    match L.Sign miner.Priv (solutionHash.Bytes.getD []) with
    | none => .error .signError
    | some solSig => .ok (NewActiveMiner ⟨miner.NodeID, NewHash s, solSig⟩)

/-- The loop of `RunWinnerSelectionWrapper` that collects one commitment per
miner, in the order of `minerSlice`. -/
def collectCommitments (L : GoLib) (solutionHash : Hash) :
    List Miner → Except Panic (List ActiveMiner)
  | [] => .ok []
  | m :: rest =>
    match GetMinerCommitment L solutionHash m with
    | .error e => .error e
    | .ok c =>
      match collectCommitments L solutionHash rest with
      | .error e => .error e
      | .ok cs => .ok (c :: cs)

/-- What the two successful `rand.Read` calls of one round deliver. -/
structure RoundRandom where
  pseudoRandomBytes : Bytes
  secretBytes : Bytes
  deriving DecidableEq, Repr

/-- The function `RunWinnerSelectionWrapper`; `fmt.Sprintf("%x", b)` on a byte
slice is the lower-case hex encoding. -/
def RunWinnerSelectionWrapper (L : GoLib) (minerSlice : List Miner) (_runIndex : Nat)
    (rnd : RoundRandom) : Except Panic GoString :=
  let solutionHash := NewHash (EncodeToString rnd.pseudoRandomBytes)
  match collectCommitments L solutionHash minerSlice with
  | .error e => .error e
  | .ok eligibleMiners => WinnerSelection L eligibleMiners (EncodeToString rnd.secretBytes)

/-- The map `leaderboard`; `none` is an absent key. -/
abbrev Leaderboard := GoString → Option Int

/-- Two's-complement wrap-around of a Go `int` (64 bits). -/
def wrapInt64 (v : Int) : Int := (v + 2 ^ 63) % 2 ^ 64 - 2 ^ 63

/-- The tally statement of the trial loop: increment an existing counter, or
set it to one. -/
def tally (leaderboard : Leaderboard) (winnerNodeID : GoString) : Leaderboard :=
  match leaderboard winnerNodeID with
  | some v => fun k => if k = winnerNodeID then some (wrapInt64 (v + 1)) else leaderboard k
  | none => fun k => if k = winnerNodeID then some 1 else leaderboard k

/-- The loop `for i := 0; i < amountOfRunsPerIdentitySet; i++` of `main`, one
`RoundRandom` per iteration. -/
def trialLoop (L : GoLib) (minerSlice : List Miner) :
    List RoundRandom → Nat → Leaderboard → Except Panic Leaderboard
  | [], _, leaderboard => .ok leaderboard
  | rnd :: rest, i, leaderboard =>
    match RunWinnerSelectionWrapper L minerSlice i rnd with
    | .error e => .error e
    | .ok winnerNodeID => trialLoop L minerSlice rest (i + 1) (tally leaderboard winnerNodeID)

/-- The cells of the exported row: `leaderboard[m.NodeID]` for each miner in
generation order (a missing key reads as 0).  The program renders each cell
with `fmt.Sprintf("%v", ·)`. -/
def exportedRow (minerSlice : List Miner) (leaderboard : Leaderboard) : List Int :=
  minerSlice.map (fun m => (leaderboard m.NodeID).getD 0)

/-- One trial of `main` after the identities are generated: a fresh
leaderboard, the rounds, the row. -/
def mainTrial (L : GoLib) (minerSlice : List Miner) (rounds : List RoundRandom) :
    Except Panic (List Int) :=
  match trialLoop L minerSlice rounds 0 (fun _ => none) with
  | .error e => .error e
  | .ok leaderboard => .ok (exportedRow minerSlice leaderboard)

/-- A library instance for concrete evaluation: insertion sort (what
`sort.Slice` runs on short slices), a signer that returns the message, and no
change to non-ASCII strings.  Every concrete identifier below is ASCII. -/
def smallLib : GoLib := ⟨fun s => s, insertionSortLessFunc, fun _ msg => some msg⟩

/-! ## Definitions used in the statements and proofs below -/

/-- The commitments of the input whose sender identifier is `n`, in input order. -/
def matching (n : GoString) (input : List ActiveMiner) : List ActiveMiner :=
  input.filter (fun o => decide (n = o.Commitment.OriginalSenderNodeID))

/-- The signatures of a list of commitments, concatenated. -/
def sigsOf (ms : List ActiveMiner) : GoString :=
  ms.flatMap (fun o => o.Commitment.SigCommit)

/-- The half-bytes of a byte slice, high half first. -/
def nibbles (src : Bytes) : List Nat := src.flatMap (fun v => [v / 16, v % 16])

/-- The number a list of base-16 digits denotes, continuing from `acc`. -/
def digitsValue (acc : Nat) (ns : List Nat) : Nat := ns.foldl (fun a n => a * 16 + n) acc

/-- Results can be compared, so that concrete runs are checked by evaluation. -/
instance decEqExcept {ε α : Type} [DecidableEq ε] [DecidableEq α] : DecidableEq (Except ε α)
  | .ok a, .ok b =>
    if h : a = b then isTrue (by rw [h]) else isFalse (fun h2 => h (by cases h2; rfl))
  | .error a, .error b =>
    if h : a = b then isTrue (by rw [h]) else isFalse (fun h2 => h (by cases h2; rfl))
  | .ok _, .error _ => isFalse (fun h => by cases h)
  | .error _, .ok _ => isFalse (fun h => by cases h)

/-- A commitment with the given identifier and signature bytes and a nil hash
commitment (which `WinnerSelection` never reads), for concrete examples. -/
def commitmentOf (id : GoString) (sig : Bytes) : ActiveMiner := ⟨⟨id, ⟨none⟩, sig⟩⟩

/-- The leaderboard holds exactly the counts `c`: absent where the count is 0. -/
def Counts (leaderboard : Leaderboard) (c : GoString → Nat) : Prop :=
  ∀ k, leaderboard k = if c k = 0 then none else some (c k : Int)

/-- Two commitments whose identifiers differ only in case. -/
def upperA : ActiveMiner := commitmentOf (ascii "A") [1]

/-- The commitment with the lower-case identifier. -/
def lowerA : ActiveMiner := commitmentOf (ascii "a") [2]

/-- The three commitments of the concrete vector, with signature bytes. -/
def vector0x1 : ActiveMiner := commitmentOf (ascii "0x1") [0x11, 0x12]

/-- The commitment of `"B"` in the concrete vector. -/
def vectorB : ActiveMiner := commitmentOf (ascii "B") [0x21, 0x22]

/-- The commitment of `"a"` in the concrete vector. -/
def vectorA : ActiveMiner := commitmentOf (ascii "a") [0x31, 0x32]

/-- A small identity set for a concrete trial. -/
def sampleMiners : List Miner :=
  [⟨ascii "12D3KooWA", [1], [10]⟩, ⟨ascii "12D3KooWB", [2], [20]⟩, ⟨ascii "12D3KooWC", [3], [30]⟩]

/-- The random bytes of two rounds of a concrete trial. -/
def sampleRounds : List RoundRandom := [⟨[0xAB, 0xCD], [0x01, 0x02]⟩, ⟨[0x12, 0x34], [0xFF]⟩]

/-- A second library instance: its sort reads the slice backwards and then runs
insertion sort, so identifiers that compare equal come out in the opposite
order.  It meets the same contract. -/
def reversingLib : GoLib :=
  ⟨fun s => s, fun less xs => insertionSortLessFunc less xs.reverse, fun _ msg => some msg⟩

/-! ## String comparison -/

theorem stringLess_irrefl (a : GoString) : stringLess a a = false := by
  induction a with
  | nil => rfl
  | cons x xs ih => simp [stringLess, ih]

theorem stringLess_trichotomy (a b : GoString) :
    stringLess a b = false → stringLess b a = false → a = b := by
  induction a generalizing b with
  | nil => cases b <;> simp [stringLess]
  | cons x xs ih =>
    cases b with
    | nil => simp [stringLess]
    | cons y ys =>
      simp only [stringLess]
      intro h1 h2
      split_ifs at h1 h2
      have hxy : x = y := by omega
      rw [hxy, ih ys h1 h2]

theorem stringLess_trans (a b c : GoString) :
    stringLess a b = true → stringLess b c = true → stringLess a c = true := by
  induction a generalizing b c with
  | nil => cases b <;> cases c <;> simp [stringLess]
  | cons x xs ih =>
    cases b with
    | nil => simp [stringLess]
    | cons y ys =>
      cases c with
      | nil => simp [stringLess]
      | cons z zs =>
        simp only [stringLess]
        intro h1 h2
        split_ifs at h1 h2 <;> split_ifs <;> first | rfl | omega | (exact ih ys zs h1 h2)

theorem stringLess_asymm (a b : GoString) (h : stringLess a b = true) :
    stringLess b a = false := by
  cases hba : stringLess b a with
  | false => rfl
  | true =>
    have := stringLess_trans a b a h hba
    rw [stringLess_irrefl] at this
    exact absurd this (by decide)

/-- A comparison through a key is a strict weak ordering. -/
theorem strictWeakOrder_key (key : GoString → GoString) :
    StrictWeakOrder (fun a b => stringLess (key a) (key b)) := by
  refine ⟨fun a => stringLess_irrefl _, fun a b c => stringLess_trans _ _ _, ?_⟩
  intro a b c hab hbc
  have hab : stringLess (key a) (key b) = false := hab
  have hbc : stringLess (key b) (key c) = false := hbc
  show stringLess (key a) (key c) = false
  cases hac : stringLess (key a) (key c) with
  | false => rfl
  | true =>
    exfalso
    cases hba : stringLess (key b) (key a) with
    | false =>
      have hEq := stringLess_trichotomy _ _ hab hba
      rw [hEq] at hac
      rw [hac] at hbc
      exact absurd hbc (by decide)
    | true =>
      have := stringLess_trans _ _ _ hba hac
      rw [this] at hbc
      exact absurd hbc (by decide)

theorem strictWeakOrder_lessNodeID (L : GoLib) : StrictWeakOrder (lessNodeID L) :=
  strictWeakOrder_key (ToLower L.unicodeLower)

/-! ## Insertion sort meets the contract of `sort.Slice` -/

theorem strictWeakOrder_asymm {α : Type} {less : α → α → Bool} (h : StrictWeakOrder less)
    (a b : α) (hab : less a b = true) : less b a = false := by
  cases hba : less b a with
  | false => rfl
  | true =>
    have := h.2.1 a b a hab hba
    rw [h.1 a] at this
    exact absurd this (by decide)

theorem sinkLeft_perm {α : Type} (less : α → α → Bool) (x : α) (sorted : List α) :
    (sinkLeft less x sorted).Perm (x :: sorted) := by
  induction sorted with
  | nil => exact List.Perm.refl _
  | cons y rest ih =>
    simp only [sinkLeft]
    split_ifs
    · exact (List.Perm.cons y ih).trans (List.Perm.swap x y rest)
    · exact List.Perm.refl _

theorem sinkLeft_pairwise {α : Type} {less : α → α → Bool} (h : StrictWeakOrder less) (x : α)
    (sorted : List α) (hs : sorted.Pairwise (fun a b => less a b = false)) :
    (sinkLeft less x sorted).Pairwise (fun a b => less a b = false) := by
  induction sorted with
  | nil => simp [sinkLeft]
  | cons y rest ih =>
    have hy := (List.pairwise_cons.mp hs).1
    have hrest := (List.pairwise_cons.mp hs).2
    simp only [sinkLeft]
    split_ifs with hxy
    · refine List.pairwise_cons.mpr ⟨?_, ih hrest⟩
      intro z hz
      have hz2 : z ∈ x :: rest := (sinkLeft_perm less x rest).subset hz
      rcases List.mem_cons.mp hz2 with hzx | hzr
      · rw [hzx]; exact strictWeakOrder_asymm h x y hxy
      · exact hy z hzr
    · have hxy2 : less x y = false := by simpa using hxy
      refine List.pairwise_cons.mpr ⟨?_, hs⟩
      intro z hz
      rcases List.mem_cons.mp hz with hzy | hzr
      · rw [hzy]; exact hxy2
      · exact h.2.2 x y z hxy2 (hy z hzr)

theorem insertionFold_perm {α : Type} (less : α → α → Bool) (data acc : List α) :
    (data.foldl (fun sortedRev x => sinkLeft less x sortedRev) acc).Perm (data ++ acc) := by
  induction data generalizing acc with
  | nil => exact List.Perm.refl _
  | cons x xs ih =>
    simp only [List.foldl_cons]
    refine (ih (sinkLeft less x acc)).trans ?_
    refine ((sinkLeft_perm less x acc).append_left xs).trans ?_
    exact List.perm_middle

theorem insertionFold_pairwise {α : Type} {less : α → α → Bool} (h : StrictWeakOrder less)
    (data acc : List α) (hacc : acc.Pairwise (fun a b => less a b = false)) :
    (data.foldl (fun sortedRev x => sinkLeft less x sortedRev) acc).Pairwise
      (fun a b => less a b = false) := by
  induction data generalizing acc with
  | nil => exact hacc
  | cons x xs ih =>
    simp only [List.foldl_cons]
    exact ih _ (sinkLeft_pairwise h x acc hacc)

theorem insertionSortLessFunc_perm {α : Type} (less : α → α → Bool) (data : List α) :
    (insertionSortLessFunc less data).Perm data := by
  unfold insertionSortLessFunc
  refine (List.reverse_perm _).trans ?_
  simpa using insertionFold_perm less data []

theorem insertionSortLessFunc_sorted {α : Type} {less : α → α → Bool}
    (h : StrictWeakOrder less) (data : List α) :
    (insertionSortLessFunc less data).Pairwise (fun a b => less b a = false) := by
  unfold insertionSortLessFunc
  rw [List.pairwise_reverse]
  exact insertionFold_pairwise h data [] List.Pairwise.nil

theorem sortContract_insertionSort : SortContract insertionSortLessFunc :=
  fun less xs => ⟨insertionSortLessFunc_perm less xs, fun h => insertionSortLessFunc_sorted h xs⟩

theorem sortContract_smallLib : SortContract smallLib.sortSlice :=
  sortContract_insertionSort

/-! ## A sorted arrangement of distinct keys is unique -/

theorem pairwise_strict_of_nodup (key : GoString → GoString) (l : List GoString)
    (hs : l.Pairwise (fun a b => stringLess (key b) (key a) = false))
    (hn : (l.map key).Nodup) :
    l.Pairwise (fun a b => stringLess (key a) (key b) = true) := by
  have hne : l.Pairwise (fun a b => key a ≠ key b) := by
    have := hn
    unfold List.Nodup at this
    rwa [List.pairwise_map] at this
  refine (hs.and hne).imp ?_
  intro a b hab
  cases hlt : stringLess (key a) (key b) with
  | true => rfl
  | false => exact absurd (stringLess_trichotomy _ _ hlt hab.1) hab.2

theorem sorted_unique (key : GoString → GoString) (l₁ l₂ : List GoString) (hp : l₁.Perm l₂)
    (h₁ : l₁.Pairwise (fun a b => stringLess (key b) (key a) = false))
    (h₂ : l₂.Pairwise (fun a b => stringLess (key b) (key a) = false))
    (hn : (l₁.map key).Nodup) : l₁ = l₂ := by
  have hn₂ : (l₂.map key).Nodup := (hp.map key).nodup_iff.mp hn
  have s₁ := pairwise_strict_of_nodup key l₁ h₁ hn
  have s₂ := pairwise_strict_of_nodup key l₂ h₂ hn₂
  haveI : IsAntisymm GoString (fun a b => stringLess (key a) (key b) = true) :=
    ⟨fun a b hab hba => by
      have := stringLess_asymm _ _ hab
      rw [hba] at this
      exact absurd this (by decide)⟩
  exact List.eq_of_perm_of_sorted hp s₁ s₂

/-! ## What the nested loops of step 0.3 compute -/

theorem sigsOf_append (xs ys : List ActiveMiner) : sigsOf (xs ++ ys) = sigsOf xs ++ sigsOf ys := by
  simp [sigsOf]

theorem rebuild_inner (n : GoString) (input : List ActiveMiner)
    (acc : List ActiveMiner × GoString) :
    input.foldl (rebuildStep n) acc =
      (acc.1 ++ matching n input, acc.2 ++ sigsOf (matching n input)) := by
  induction input generalizing acc with
  | nil => simp [matching, sigsOf]
  | cons o rest ih =>
    simp only [List.foldl_cons]
    rw [ih]
    by_cases h : n = o.Commitment.OriginalSenderNodeID
    · simp [rebuildStep, matching, sigsOf, h]
    · simp [rebuildStep, matching, sigsOf, h]

theorem rebuild_outer (ids : List GoString) (input : List ActiveMiner)
    (acc : List ActiveMiner × GoString) :
    ids.foldl (fun acc n => input.foldl (rebuildStep n) acc) acc =
      (acc.1 ++ ids.flatMap (fun n => matching n input),
        acc.2 ++ sigsOf (ids.flatMap (fun n => matching n input))) := by
  induction ids generalizing acc with
  | nil => simp [sigsOf]
  | cons n rest ih =>
    simp only [List.foldl_cons]
    rw [ih, rebuild_inner]
    simp [sigsOf_append, List.append_assoc]

theorem rebuild_eq (ids : List GoString) (input : List ActiveMiner) :
    rebuild ids input =
      (ids.flatMap (fun n => matching n input),
        sigsOf (ids.flatMap (fun n => matching n input))) := by
  unfold rebuild
  rw [rebuild_outer]
  simp

theorem eligibleMinersSorted_eq (L : GoLib) (input : List ActiveMiner) :
    eligibleMinersSorted L input =
      (sortedNodeIDStrings L input).flatMap (fun n => matching n input) := by
  simp [eligibleMinersSorted, rebuild_eq]

theorem concatenatedSigs_eq (L : GoLib) (input : List ActiveMiner) :
    concatenatedSigs L input = sigsOf (eligibleMinersSorted L input) := by
  simp [eligibleMinersSorted, concatenatedSigs, rebuild_eq]

theorem matching_singleton (input : List ActiveMiner)
    (hn : (input.map (fun m => m.Commitment.OriginalSenderNodeID)).Nodup)
    (m : ActiveMiner) (hm : m ∈ input) :
    matching m.Commitment.OriginalSenderNodeID input = [m] := by
  induction input with
  | nil => cases hm
  | cons o rest ih =>
    have hnot := (List.nodup_cons.mp hn).1
    have hrest := (List.nodup_cons.mp hn).2
    rcases List.mem_cons.mp hm with hmo | hmr
    · subst hmo
      have hnone : matching m.Commitment.OriginalSenderNodeID rest = [] := by
        unfold matching
        rw [List.filter_eq_nil_iff]
        intro o ho
        simp only [decide_eq_true_eq]
        intro heq
        exact hnot (List.mem_map.mpr ⟨o, ho, heq.symm⟩)
      have hcons : matching m.Commitment.OriginalSenderNodeID (m :: rest) =
          m :: matching m.Commitment.OriginalSenderNodeID rest := by
        simp [matching]
      rw [hcons, hnone]
    · have hne : ¬ m.Commitment.OriginalSenderNodeID = o.Commitment.OriginalSenderNodeID := by
        intro heq
        exact hnot (List.mem_map.mpr ⟨m, hmr, heq⟩)
      have hcons : matching m.Commitment.OriginalSenderNodeID (o :: rest) =
          matching m.Commitment.OriginalSenderNodeID rest := by
        simp [matching, hne]
      rw [hcons]
      exact ih hrest hmr

theorem flatMap_congr_mem {α β : Type} (l : List α) (f g : α → List β)
    (h : ∀ x ∈ l, f x = g x) : l.flatMap f = l.flatMap g := by
  induction l with
  | nil => rfl
  | cons x xs ih =>
    simp only [List.flatMap_cons]
    rw [h x (List.mem_cons_self x xs), ih (fun y hy => h y (List.mem_cons_of_mem x hy))]

theorem flatMap_single {α : Type} (l : List α) : l.flatMap (fun x => [x]) = l := by
  induction l with
  | nil => rfl
  | cons x xs ih => simp only [List.flatMap_cons, ih, List.singleton_append]

/-- With pairwise distinct identifiers, looking the identifiers of the input up
again gives the input back. -/
theorem flatMap_matching_ids (input : List ActiveMiner)
    (hn : (input.map (fun m => m.Commitment.OriginalSenderNodeID)).Nodup) :
    (input.map (fun m => m.Commitment.OriginalSenderNodeID)).flatMap
      (fun n => matching n input) = input := by
  rw [List.flatMap_map]
  rw [flatMap_congr_mem input _ (fun m => [m]) (fun m hm => matching_singleton input hn m hm)]
  exact flatMap_single input

theorem sortedNodeIDStrings_perm (L : GoLib) (hs : SortContract L.sortSlice)
    (input : List ActiveMiner) :
    (sortedNodeIDStrings L input).Perm (input.map (fun m => m.Commitment.OriginalSenderNodeID)) :=
  (hs (lessNodeID L) _).1

theorem sortedNodeIDStrings_sorted (L : GoLib) (hs : SortContract L.sortSlice)
    (input : List ActiveMiner) :
    (sortedNodeIDStrings L input).Pairwise (fun a b => lessNodeID L b a = false) :=
  (hs (lessNodeID L) _).2 (strictWeakOrder_lessNodeID L)

theorem eligibleMinersSorted_perm (L : GoLib) (hs : SortContract L.sortSlice)
    (input : List ActiveMiner)
    (hn : (input.map (fun m => m.Commitment.OriginalSenderNodeID)).Nodup) :
    (eligibleMinersSorted L input).Perm input := by
  rw [eligibleMinersSorted_eq]
  have h := (sortedNodeIDStrings_perm L hs input).flatMap_right (fun n => matching n input)
  rwa [flatMap_matching_ids input hn] at h

theorem eligibleMinersSorted_ids (L : GoLib) (hs : SortContract L.sortSlice)
    (input : List ActiveMiner)
    (hn : (input.map (fun m => m.Commitment.OriginalSenderNodeID)).Nodup) :
    (eligibleMinersSorted L input).map (fun m => m.Commitment.OriginalSenderNodeID) =
      sortedNodeIDStrings L input := by
  rw [eligibleMinersSorted_eq, List.map_flatMap]
  have hmem : ∀ n ∈ sortedNodeIDStrings L input,
      (matching n input).map (fun m => m.Commitment.OriginalSenderNodeID) = [n] := by
    intro n hnmem
    have hin := (sortedNodeIDStrings_perm L hs input).subset hnmem
    obtain ⟨m, hm, hmn⟩ := List.mem_map.mp hin
    rw [← hmn, matching_singleton input hn m hm]
    rfl
  rw [flatMap_congr_mem _ _ (fun n => [n]) hmem]
  exact flatMap_single _

theorem eligibleMinersSorted_subset (L : GoLib) (input : List ActiveMiner) :
    ∀ m ∈ eligibleMinersSorted L input, m ∈ input := by
  intro m hm
  rw [eligibleMinersSorted_eq, List.mem_flatMap] at hm
  obtain ⟨n, _, hmn⟩ := hm
  exact (List.mem_filter.mp hmn).1

theorem eligibleMinersSorted_ne_nil (L : GoLib) (hs : SortContract L.sortSlice)
    (input : List ActiveMiner) (hne : input ≠ []) : eligibleMinersSorted L input ≠ [] := by
  cases input with
  | nil => exact absurd rfl hne
  | cons o rest =>
    have hmem : o.Commitment.OriginalSenderNodeID ∈ sortedNodeIDStrings L (o :: rest) :=
      (sortedNodeIDStrings_perm L hs (o :: rest)).symm.subset (by simp)
    have ho : o ∈ eligibleMinersSorted L (o :: rest) := by
      rw [eligibleMinersSorted_eq, List.mem_flatMap]
      exact ⟨_, hmem, by simp [matching]⟩
    exact List.ne_nil_of_mem ho

theorem eligibleMinersSorted_nil (L : GoLib) (hs : SortContract L.sortSlice) :
    eligibleMinersSorted L [] = [] := by
  rw [eligibleMinersSorted_eq]
  have h := sortedNodeIDStrings_perm L hs []
  simp only [List.map_nil] at h
  rw [List.perm_nil.mp h]
  rfl

/-! ## Hex encoding followed by `ParseInt` -/

theorem encodeToString_eq_map (src : Bytes) : EncodeToString src = (nibbles src).map hexChar := by
  induction src with
  | nil => rfl
  | cons v rest ih =>
    have h1 : EncodeToString (v :: rest) =
        hexChar (v / 16) :: hexChar (v % 16) :: EncodeToString rest := by
      simp [EncodeToString]
    have h2 : nibbles (v :: rest) = (v / 16) :: (v % 16) :: nibbles rest := by
      simp [nibbles]
    rw [h1, h2, ih]
    rfl

theorem nibbles_length (src : Bytes) : (nibbles src).length = 2 * src.length := by
  induction src with
  | nil => rfl
  | cons v rest ih =>
    have h2 : nibbles (v :: rest) = (v / 16) :: (v % 16) :: nibbles rest := by
      simp [nibbles]
    rw [h2]
    simp only [List.length_cons, ih]
    omega

theorem nibbles_lt (src : Bytes) (hb : ∀ b ∈ src, b < 256) : ∀ n ∈ nibbles src, n < 16 := by
  intro n hn
  unfold nibbles at hn
  rw [List.mem_flatMap] at hn
  obtain ⟨v, hv, hnv⟩ := hn
  have hv256 := hb v hv
  simp only [List.mem_cons, List.mem_singleton, List.not_mem_nil, or_false] at hnv
  rcases hnv with h | h <;> omega

theorem digitVal_hexChar : ∀ n, n < 16 → digitVal (hexChar n) = some n := by
  decide

theorem hexChar_not_sign : ∀ n, n < 16 → hexChar n ≠ 0x2B ∧ hexChar n ≠ 0x2D := by
  decide

theorem parseUintLoop_hex (ns : List Nat) (hns : ∀ n ∈ ns, n < 16) (j acc : Nat)
    (hacc : acc < 16 ^ j) (hj : j + ns.length ≤ 15) :
    parseUintLoop 16 64 (ns.map hexChar) acc = .ok (digitsValue acc ns) ∧
      digitsValue acc ns < 16 ^ (j + ns.length) := by
  induction ns generalizing j acc with
  | nil => exact ⟨rfl, by simpa [digitsValue] using hacc⟩
  | cons n rest ih =>
    have hn : n < 16 := hns n (List.mem_cons_self n rest)
    have hrest : ∀ m ∈ rest, m < 16 := fun m hm => hns m (List.mem_cons_of_mem n hm)
    simp only [List.length_cons] at hj
    have hpow : 16 ^ (j + 1) = 16 * 16 ^ j := by ring
    have hstep : acc * 16 + n < 16 ^ (j + 1) := by omega
    have hle : 16 ^ j ≤ 16 ^ 14 := Nat.pow_le_pow_right (by decide) (by omega)
    have h14 : (16 : Nat) ^ 14 = 72057594037927936 := by norm_num
    have hsmall : acc < 72057594037927936 := by omega
    obtain ⟨ih1, ih2⟩ := ih hrest (j + 1) (acc * 16 + n) hstep (by omega)
    have hlen : j + (n :: rest).length = j + 1 + rest.length := by
      simp only [List.length_cons]; omega
    refine ⟨?_, ?_⟩
    · simp only [List.map_cons, parseUintLoop, digitVal_hexChar n hn]
      have c1 : ¬ (n ≥ 16) := by omega
      have c2 : ¬ (acc ≥ (2 ^ 64 - 1) / 16 + 1) := by
        norm_num
        omega
      have e1 : acc * 16 % 2 ^ 64 = acc * 16 := Nat.mod_eq_of_lt (by norm_num; omega)
      have e2 : (acc * 16 + n) % 2 ^ 64 = acc * 16 + n := Nat.mod_eq_of_lt (by norm_num; omega)
      have c3 : ¬ (acc * 16 + n < acc * 16 ∨ acc * 16 + n > 2 ^ 64 - 1) := by
        norm_num
        omega
      rw [if_neg c1, if_neg c2]
      simp only [e1, e2]
      rw [if_neg c3]
      exact ih1
    · rw [hlen]
      exact ih2

theorem parseInt_hex (ns : List Nat) (hns : ∀ n ∈ ns, n < 16) (hne : ns ≠ [])
    (hlen : ns.length ≤ 15) :
    ParseInt (ns.map hexChar) 16 64 = .ok ((digitsValue 0 ns : Nat) : Int) ∧
      digitsValue 0 ns < 2 ^ 60 := by
  obtain ⟨h1, h2⟩ := parseUintLoop_hex ns hns 0 0 (by norm_num) (by omega)
  have hbound : digitsValue 0 ns < 2 ^ 60 := by
    have hle : 16 ^ (0 + ns.length) ≤ 16 ^ 15 := Nat.pow_le_pow_right (by decide) (by omega)
    have h15 : (16 : Nat) ^ 15 = 2 ^ 60 := by norm_num
    omega
  refine ⟨?_, hbound⟩
  cases ns with
  | nil => exact absurd rfl hne
  | cons n rest =>
    have hn : n < 16 := hns n (List.mem_cons_self n rest)
    have hsign := hexChar_not_sign n hn
    have hbody : ParseUint (hexChar n :: rest.map hexChar) 16 64 =
        .ok (digitsValue 0 (n :: rest)) := by
      unfold ParseUint
      rw [if_neg (by simp), if_pos (by decide)]
      exact h1
    have h63 : ¬ (digitsValue 0 (n :: rest) ≥ 2 ^ (64 - 1)) := by
      have : (2 : Nat) ^ 60 < 2 ^ (64 - 1) := by norm_num
      omega
    simp only [List.map_cons, ParseInt]
    rw [if_neg (by intro h; rcases h with h | h; exact hsign.1 h; exact hsign.2 h)]
    rw [hbody]
    have h63b : digitsValue 0 (n :: rest) < 9223372036854775808 := by
      have : (2 : Nat) ^ 60 < 9223372036854775808 := by norm_num
      omega
    simp [hsign.2, h63b]

/-- The first 15 hex characters of a digest of at least 8 bytes parse to a
number below `2^60`. -/
theorem parseInt_digest (d : Bytes) (hlen : 8 ≤ d.length) (hb : ∀ b ∈ d, b < 256) :
    ∃ v : Nat, v < 2 ^ 60 ∧ 15 ≤ (EncodeToString d).length ∧
      ParseInt ((EncodeToString d).take 15) 16 64 = .ok (v : Int) := by
  have hnl := nibbles_length d
  have hlen15 : ((nibbles d).take 15).length = 15 := by
    rw [List.length_take]; omega
  have hns : ∀ n ∈ (nibbles d).take 15, n < 16 :=
    fun n hn => nibbles_lt d hb n (List.mem_of_mem_take hn)
  have hne : (nibbles d).take 15 ≠ [] := by
    intro h
    rw [h] at hlen15
    cases hlen15
  obtain ⟨h1, h2⟩ := parseInt_hex ((nibbles d).take 15) hns hne (by omega)
  refine ⟨digitsValue 0 ((nibbles d).take 15), h2, ?_, ?_⟩
  · rw [encodeToString_eq_map, List.length_map]; omega
  · rw [encodeToString_eq_map, ← List.map_take]
    exact h1

/-! ## The digest of `NewHash` -/

theorem laneBytes_length (v : Nat) : (laneBytes v).length = 8 := by
  simp [laneBytes]

theorem laneBytes_lt (v : Nat) : ∀ b ∈ laneBytes v, b < 256 := by
  intro b hb
  unfold laneBytes at hb
  obtain ⟨k, _, hk⟩ := List.mem_map.mp hb
  rw [← hk]
  exact Nat.mod_lt _ (by decide)

theorem keccak256_length (input : Bytes) : (keccak256 input).length = 32 := by
  simp [keccak256, laneBytes_length]

theorem keccak256_lt (input : Bytes) : ∀ b ∈ keccak256 input, b < 256 := by
  intro b hb
  simp only [keccak256, List.mem_append] at hb
  rcases hb with ((h | h) | h) | h <;> exact laneBytes_lt _ b h

/-- Steps 2 and 3 never panic: the number exists and is below `2^60`. -/
theorem hashToNumber_ok (input : GoString) :
    ∃ v : Nat, v < 2 ^ 60 ∧ hashToNumber input = .ok (v : Int) := by
  obtain ⟨v, hv, h15, hparse⟩ := parseInt_digest (keccak256 input)
    (by rw [keccak256_length]; decide) (keccak256_lt input)
  refine ⟨v, hv, ?_⟩
  simp only [hashToNumber, NewHash, Hash.GetString]
  rw [if_neg (by omega), hparse]

/-! ## The index computation and the shape of `WinnerSelection` -/

theorem selectWinner_ok (sorted : List ActiveMiner) (hne : sorted ≠ []) (v : Nat) :
    ∃ m, sorted[v % sorted.length]? = some m ∧
      selectWinner sorted (v : Int) = .ok m.Commitment.OriginalSenderNodeID := by
  have hlen : 0 < sorted.length := List.length_pos.mpr hne
  have hlt : v % sorted.length < sorted.length := Nat.mod_lt _ hlen
  refine ⟨sorted[v % sorted.length], List.getElem?_eq_getElem hlt, ?_⟩
  unfold selectWinner
  rw [if_neg (by omega)]
  simp only [← Int.ofNat_tmod, Int.toNat_ofNat]
  rw [if_neg (by omega), List.getElem?_eq_getElem hlt]

theorem selectWinner_nil (aDec : Int) : selectWinner [] aDec = .error .divideByZero := rfl

/-- With a non-empty secret, `WinnerSelection` is the index computation on a
number below `2^60`. -/
theorem winnerSelection_eq (L : GoLib) (miners : List ActiveMiner) (secret : GoString)
    (hsec : secret ≠ []) :
    ∃ v : Nat, v < 2 ^ 60 ∧
      hashToNumber (concatenatedSigs L miners ++ secret) = .ok (v : Int) ∧
      WinnerSelection L miners secret = selectWinner (eligibleMinersSorted L miners) (v : Int) := by
  obtain ⟨v, hv, hnum⟩ := hashToNumber_ok (concatenatedSigs L miners ++ secret)
  refine ⟨v, hv, hnum, ?_⟩
  unfold WinnerSelection
  rw [if_neg hsec, hnum]

theorem winnerSelection_ok (L : GoLib) (hs : SortContract L.sortSlice)
    (miners : List ActiveMiner) (secret : GoString) (hne : miners ≠ []) (hsec : secret ≠ []) :
    ∃ m ∈ eligibleMinersSorted L miners,
      WinnerSelection L miners secret = .ok m.Commitment.OriginalSenderNodeID := by
  obtain ⟨v, _, _, hw⟩ := winnerSelection_eq L miners secret hsec
  obtain ⟨m, hm, hsel⟩ := selectWinner_ok _ (eligibleMinersSorted_ne_nil L hs miners hne) v
  exact ⟨m, List.getElem?_mem hm, hw.trans hsel⟩

/-- The sorted rebuild does not depend on the input order nor on the sorting
algorithm, when the lower-cased identifiers are pairwise distinct. -/
theorem eligibleMinersSorted_perm_invariant (L₁ L₂ : GoLib)
    (hul : L₁.unicodeLower = L₂.unicodeLower)
    (hs₁ : SortContract L₁.sortSlice) (hs₂ : SortContract L₂.sortSlice)
    (miners shuffled : List ActiveMiner) (hp : shuffled.Perm miners)
    (hn : (miners.map
      (fun m => ToLower L₁.unicodeLower m.Commitment.OriginalSenderNodeID)).Nodup) :
    eligibleMinersSorted L₁ shuffled = eligibleMinersSorted L₂ miners := by
  have hless : lessNodeID L₂ = lessNodeID L₁ := by
    funext a b
    simp [lessNodeID, hul]
  have hids : (miners.map (fun m => m.Commitment.OriginalSenderNodeID)).Nodup := by
    have h : (List.map (ToLower L₁.unicodeLower)
        (miners.map (fun m => m.Commitment.OriginalSenderNodeID))).Nodup := by
      rw [List.map_map]; exact hn
    exact List.Nodup.of_map _ h
  have hidsS : (shuffled.map (fun m => m.Commitment.OriginalSenderNodeID)).Nodup :=
    (hp.map _).nodup_iff.mpr hids
  have hperm : (sortedNodeIDStrings L₁ shuffled).Perm (sortedNodeIDStrings L₂ miners) :=
    ((sortedNodeIDStrings_perm L₁ hs₁ shuffled).trans (hp.map _)).trans
      (sortedNodeIDStrings_perm L₂ hs₂ miners).symm
  have hsorted₂ := sortedNodeIDStrings_sorted L₂ hs₂ miners
  rw [hless] at hsorted₂
  have hkeys : ((sortedNodeIDStrings L₁ shuffled).map (ToLower L₁.unicodeLower)).Nodup := by
    have h1 := ((sortedNodeIDStrings_perm L₁ hs₁ shuffled).trans (hp.map _)).map
      (ToLower L₁.unicodeLower)
    rw [List.map_map] at h1
    exact h1.nodup_iff.mpr hn
  have hsame : sortedNodeIDStrings L₁ shuffled = sortedNodeIDStrings L₂ miners :=
    sorted_unique (ToLower L₁.unicodeLower) _ _ hperm
      (sortedNodeIDStrings_sorted L₁ hs₁ shuffled) hsorted₂ hkeys
  rw [eligibleMinersSorted_eq, eligibleMinersSorted_eq, hsame]
  apply flatMap_congr_mem
  intro n hnmem
  have hin := (sortedNodeIDStrings_perm L₂ hs₂ miners).subset hnmem
  obtain ⟨m, hm, hmn⟩ := List.mem_map.mp hin
  rw [← hmn, matching_singleton miners hids m hm,
    matching_singleton shuffled hidsS m (hp.symm.subset hm)]

theorem winnerSelection_perm_invariant (L₁ L₂ : GoLib)
    (hul : L₁.unicodeLower = L₂.unicodeLower)
    (hs₁ : SortContract L₁.sortSlice) (hs₂ : SortContract L₂.sortSlice)
    (miners shuffled : List ActiveMiner) (hp : shuffled.Perm miners) (hne : miners ≠ [])
    (hn : (miners.map
      (fun m => ToLower L₁.unicodeLower m.Commitment.OriginalSenderNodeID)).Nodup)
    (secret : GoString) (hsec : secret ≠ []) :
    ∃ w, WinnerSelection L₁ shuffled secret = .ok w ∧
      WinnerSelection L₂ miners secret = .ok w := by
  have hel := eligibleMinersSorted_perm_invariant L₁ L₂ hul hs₁ hs₂ miners shuffled hp hn
  obtain ⟨m, _, hw⟩ := winnerSelection_ok L₂ hs₂ miners secret hne hsec
  refine ⟨_, ?_, hw⟩
  rw [← hw]
  unfold WinnerSelection
  rw [concatenatedSigs_eq, concatenatedSigs_eq, hel]

/-! ## The trial loop -/

/-- A returned winner is the sender of one of the commitments handed in. -/
theorem winnerSelection_mem (L : GoLib) (miners : List ActiveMiner) (secret w : GoString)
    (h : WinnerSelection L miners secret = .ok w) :
    ∃ m ∈ miners, m.Commitment.OriginalSenderNodeID = w := by
  unfold WinnerSelection at h
  split_ifs at h
  split at h
  · cases h
  · rename_i aDec _
    unfold selectWinner at h
    split_ifs at h
    simp only at h
    split_ifs at h
    split at h
    · cases h
    · rename_i m hm
      injection h with h
      exact ⟨m, eligibleMinersSorted_subset L miners m (List.getElem?_mem hm), h⟩

theorem collectCommitments_ids (L : GoLib) (solutionHash : Hash) (minerSlice : List Miner)
    (cs : List ActiveMiner) (h : collectCommitments L solutionHash minerSlice = .ok cs) :
    cs.map (fun c => c.Commitment.OriginalSenderNodeID) = minerSlice.map (fun m => m.NodeID) := by
  induction minerSlice generalizing cs with
  | nil =>
    simp only [collectCommitments] at h
    injection h with h
    rw [← h]
    rfl
  | cons m rest ih =>
    simp only [collectCommitments] at h
    split at h
    · cases h
    · rename_i c hc
      split at h
      · cases h
      · rename_i cs2 hcs
        injection h with h
        rw [← h]
        simp only [List.map_cons, ih cs2 hcs]
        congr 1
        unfold GetMinerCommitment at hc
        split at hc
        · cases hc
        · split at hc
          · cases hc
          · injection hc with hc
            rw [← hc]
            rfl

theorem collectCommitments_ok (L : GoLib) (input : GoString) (minerSlice : List Miner)
    (hsign : ∀ m ∈ minerSlice, ∀ msg, (L.Sign m.Priv msg).isSome = true) :
    ∃ cs, collectCommitments L (NewHash input) minerSlice = .ok cs := by
  induction minerSlice with
  | nil => exact ⟨[], rfl⟩
  | cons m rest ih =>
    obtain ⟨cs, hcs⟩ := ih (fun x hx msg => hsign x (List.mem_cons_of_mem m hx) msg)
    have hm := hsign m (List.mem_cons_self m rest) ((NewHash input).Bytes.getD [])
    obtain ⟨sig, hsig⟩ := Option.isSome_iff_exists.mp hm
    refine ⟨NewActiveMiner ⟨m.NodeID, NewHash (EncodeToString (keccak256 input)), sig⟩ :: cs, ?_⟩
    simp only [collectCommitments, GetMinerCommitment, hcs, hsig]
    rfl

theorem encodeToString_ne_nil (b : Bytes) (h : b ≠ []) : EncodeToString b ≠ [] := by
  cases b with
  | nil => exact absurd rfl h
  | cons v rest => simp [EncodeToString]

theorem runWinnerSelectionWrapper_mem (L : GoLib) (minerSlice : List Miner) (i : Nat)
    (rnd : RoundRandom) (w : GoString)
    (h : RunWinnerSelectionWrapper L minerSlice i rnd = .ok w) :
    w ∈ minerSlice.map (fun m => m.NodeID) := by
  unfold RunWinnerSelectionWrapper at h
  simp only at h
  split at h
  · cases h
  · rename_i cs hcs
    obtain ⟨m, hm, hmw⟩ := winnerSelection_mem L cs _ w h
    rw [← collectCommitments_ids L _ minerSlice cs hcs, ← hmw]
    exact List.mem_map.mpr ⟨m, hm, rfl⟩

theorem runWinnerSelectionWrapper_ok (L : GoLib) (hs : SortContract L.sortSlice)
    (minerSlice : List Miner) (hne : minerSlice ≠ [])
    (hsign : ∀ m ∈ minerSlice, ∀ msg, (L.Sign m.Priv msg).isSome = true)
    (i : Nat) (rnd : RoundRandom) (hsec : rnd.secretBytes ≠ []) :
    ∃ w, RunWinnerSelectionWrapper L minerSlice i rnd = .ok w := by
  obtain ⟨cs, hcs⟩ := collectCommitments_ok L (EncodeToString rnd.pseudoRandomBytes)
    minerSlice hsign
  have hcsne : cs ≠ [] := by
    intro h0
    have hids := collectCommitments_ids L _ minerSlice cs hcs
    rw [h0] at hids
    cases minerSlice with
    | nil => exact hne rfl
    | cons m rest => cases hids
  obtain ⟨m, _, hw⟩ := winnerSelection_ok L hs cs (EncodeToString rnd.secretBytes) hcsne
    (encodeToString_ne_nil _ hsec)
  refine ⟨m.Commitment.OriginalSenderNodeID, ?_⟩
  unfold RunWinnerSelectionWrapper
  simp only [hcs]
  exact hw

theorem wrapInt64_id (v : Int) (h0 : 0 ≤ v) (h1 : v < 2 ^ 63) : wrapInt64 v = v := by
  unfold wrapInt64
  norm_num at h1 ⊢
  omega

theorem tally_counts (leaderboard : Leaderboard) (c : GoString → Nat) (w : GoString)
    (hc : Counts leaderboard c) (hlt : c w + 1 < 2 ^ 63) :
    Counts (tally leaderboard w) (fun k => if k = w then c k + 1 else c k) := by
  intro k
  have hw := hc w
  have hk := hc k
  unfold tally
  by_cases hcw : c w = 0
  · rw [if_pos hcw] at hw
    rw [hw]
    by_cases hkw : k = w
    · subst hkw
      simp [hcw]
    · simp only [if_neg hkw]
      exact hk
  · rw [if_neg hcw] at hw
    rw [hw]
    by_cases hkw : k = w
    · subst hkw
      have hwrap : wrapInt64 ((c k : Int) + 1) = (c k : Int) + 1 :=
        wrapInt64_id _ (by omega) (by norm_num at hlt ⊢; omega)
      simp [hwrap]
    · simp only [if_neg hkw]
      exact hk

/-- The trial loop returns a leaderboard that counts a list of winners, one per
round, each of them a miner of the trial. -/
theorem trialLoop_counts (L : GoLib) (minerSlice : List Miner) (rounds : List RoundRandom)
    (i : Nat) (leaderboard result : Leaderboard) (seen : List GoString)
    (hc : Counts leaderboard (fun k => seen.count k))
    (hR : seen.length + rounds.length < 2 ^ 63)
    (h : trialLoop L minerSlice rounds i leaderboard = .ok result) :
    ∃ ws : List GoString, ws.length = seen.length + rounds.length ∧
      (∀ w ∈ ws, w ∈ seen ∨ w ∈ minerSlice.map (fun m => m.NodeID)) ∧
      Counts result (fun k => ws.count k) := by
  induction rounds generalizing i leaderboard seen with
  | nil =>
    simp only [trialLoop] at h
    injection h with h
    subst h
    exact ⟨seen, by simp, fun w hw => Or.inl hw, hc⟩
  | cons rnd rest ih =>
    simp only [trialLoop] at h
    split at h
    · cases h
    · rename_i w hw
      simp only [List.length_cons] at hR
      have hcount : seen.count w ≤ seen.length := List.count_le_length w seen
      have hstep : Counts (tally leaderboard w) (fun k => (w :: seen).count k) := by
        have := tally_counts leaderboard (fun k => seen.count k) w hc
          (by show seen.count w + 1 < 2 ^ 63; omega)
        intro k
        rw [this k]
        by_cases hkw : k = w
        · subst hkw
          simp
        · have hwk : ¬ w = k := fun e => hkw e.symm
          simp [hkw, List.count_cons, hwk]
      obtain ⟨ws, hlen, hmem, hres⟩ := ih (i + 1) (tally leaderboard w) (w :: seen) hstep
        (by simp only [List.length_cons]; omega) h
      refine ⟨ws, by simp only [List.length_cons] at hlen ⊢; omega, ?_, hres⟩
      intro x hx
      rcases hmem x hx with hx1 | hx2
      · rcases List.mem_cons.mp hx1 with hxw | hxs
        · right
          rw [hxw]
          exact runWinnerSelectionWrapper_mem L minerSlice i rnd w hw
        · exact Or.inl hxs
      · exact Or.inr hx2

theorem trialLoop_ok (L : GoLib) (hs : SortContract L.sortSlice)
    (minerSlice : List Miner) (hne : minerSlice ≠ [])
    (hsign : ∀ m ∈ minerSlice, ∀ msg, (L.Sign m.Priv msg).isSome = true)
    (rounds : List RoundRandom) (hsec : ∀ r ∈ rounds, r.secretBytes ≠ [])
    (i : Nat) (leaderboard : Leaderboard) :
    ∃ result, trialLoop L minerSlice rounds i leaderboard = .ok result := by
  induction rounds generalizing i leaderboard with
  | nil => exact ⟨leaderboard, rfl⟩
  | cons rnd rest ih =>
    obtain ⟨w, hw⟩ := runWinnerSelectionWrapper_ok L hs minerSlice hne hsign i rnd
      (hsec rnd (List.mem_cons_self rnd rest))
    obtain ⟨result, hres⟩ := ih (fun r hr => hsec r (List.mem_cons_of_mem rnd hr)) (i + 1)
      (tally leaderboard w)
    exact ⟨result, by simp only [trialLoop, hw]; exact hres⟩

theorem sum_indicator_eq_count (ids : List GoString) (w : GoString) :
    (ids.map (fun k => if w = k then 1 else 0)).sum = ids.count w := by
  induction ids with
  | nil => rfl
  | cons k rest ih =>
    simp only [List.map_cons, List.sum_cons, ih, List.count_cons]
    by_cases h : w = k
    · subst h; simp; omega
    · have h2 : ¬ k = w := fun e => h e.symm
      simp [h, h2]

theorem count_eq_one_of_nodup (ids : List GoString) (hn : ids.Nodup) (w : GoString)
    (hw : w ∈ ids) : ids.count w = 1 := by
  induction ids with
  | nil => cases hw
  | cons k rest ih =>
    have hnot := (List.nodup_cons.mp hn).1
    have hrest := (List.nodup_cons.mp hn).2
    rw [List.count_cons]
    rcases List.mem_cons.mp hw with h | h
    · subst h
      rw [List.count_eq_zero_of_not_mem hnot]
      simp
    · have hne : ¬ k = w := by
        intro e
        subst e
        exact hnot h
      rw [ih hrest h]
      simp [hne]

/-- Counting every winner once per identifier gives the number of winners. -/
theorem sum_count_eq_length (ids : List GoString) (hn : ids.Nodup) (ws : List GoString)
    (hmem : ∀ w ∈ ws, w ∈ ids) : (ids.map (fun k => ws.count k)).sum = ws.length := by
  induction ws with
  | nil => simp
  | cons w rest ih =>
    have hw : w ∈ ids := hmem w (List.mem_cons_self w rest)
    have hrest := ih (fun x hx => hmem x (List.mem_cons_of_mem w hx))
    have hsplit : (ids.map (fun k => (w :: rest).count k)) =
        ids.map (fun k => rest.count k + (if w = k then 1 else 0)) := by
      apply List.map_congr_left
      intro k _
      by_cases h : w = k
      · subst h; simp
      · simp [List.count_cons, h]
    rw [hsplit, List.sum_map_add, hrest, sum_indicator_eq_count]
    have hone : ids.count w = 1 := count_eq_one_of_nodup ids hn w hw
    rw [hone]
    simp

theorem exportedRow_sum (minerSlice : List Miner) (leaderboard : Leaderboard)
    (ws : List GoString) (hn : (minerSlice.map (fun m => m.NodeID)).Nodup)
    (hmem : ∀ w ∈ ws, w ∈ minerSlice.map (fun m => m.NodeID))
    (hc : Counts leaderboard (fun k => ws.count k)) :
    (exportedRow minerSlice leaderboard).sum = (ws.length : Int) := by
  have hcells : exportedRow minerSlice leaderboard =
      (minerSlice.map (fun m => m.NodeID)).map (fun k => ((ws.count k : Nat) : Int)) := by
    unfold exportedRow
    rw [List.map_map]
    apply List.map_congr_left
    intro m _
    simp only [Function.comp]
    rw [hc m.NodeID]
    by_cases h0 : ws.count m.NodeID = 0
    · simp [h0]
    · simp [h0]
  have hcast : ∀ l : List GoString,
      (l.map (fun k => ((ws.count k : Nat) : Int))).sum =
        (((l.map (fun k => ws.count k)).sum : Nat) : Int) := by
    intro l
    induction l with
    | nil => rfl
    | cons k rest ih => simp only [List.map_cons, List.sum_cons, ih]; push_cast; rfl
  rw [hcells, hcast, sum_count_eq_length _ hn ws hmem]

/-! ## Reference digests of the Keccak-256 embedding -/

/-- The embedding reproduces the published legacy Keccak-256 digest of the
empty input. -/
theorem keccak256_empty :
    keccak256 [] =
      [0xc5, 0xd2, 0x46, 0x01, 0x86, 0xf7, 0x23, 0x3c, 0x92, 0x7e, 0x7d, 0xb2, 0xdc, 0xc7,
       0x03, 0xc0, 0xe5, 0x00, 0xb6, 0x53, 0xca, 0x82, 0x27, 0x3b, 0x7b, 0xfa, 0xd8, 0x04,
       0x5d, 0x85, 0xa4, 0x70] := by
  decide!

/-- The embedding reproduces the published legacy Keccak-256 digest of `"abc"`. -/
theorem keccak256_abc :
    (NewHash (ascii "abc")).GetString =
      .ok (ascii "4e03657aea45a94fc7d47ba826c8d667c0d1e6e33a64a036ec44f58fa12d6c45") := by
  decide!

/-! ## The claims -/

/-- C1 (counterexample): the identifiers `"A"` and `"a"` are distinct strings,
yet on the secret `"2"` the input order `[A, a]` elects `"A"` and the input
order `[a, A]` elects `"a"`: the comparison is case-insensitive, the two
identifiers tie, and insertion sort keeps them in input order.  The digests of
the bytes `01 02 32` and `02 01 32` start with `748e40a7c5b1504` and
`be89edbac7ab68c`, both even, so both calls take index 0 of their own order. -/
theorem C1_order_dependence_counterexample :
    ([upperA, lowerA].map (fun m => m.Commitment.OriginalSenderNodeID)).Nodup ∧
    [lowerA, upperA].Perm [upperA, lowerA] ∧
    ascii "2" ≠ [] ∧
    WinnerSelection smallLib [upperA, lowerA] (ascii "2") = .ok (ascii "A") ∧
    WinnerSelection smallLib [lowerA, upperA] (ascii "2") = .ok (ascii "a") ∧
    WinnerSelection smallLib [lowerA, upperA] (ascii "2") ≠
      WinnerSelection smallLib [upperA, lowerA] (ascii "2") := by
  have h1 : WinnerSelection smallLib [upperA, lowerA] (ascii "2") = .ok (ascii "A") := by
    decide!
  have h2 : WinnerSelection smallLib [lowerA, upperA] (ascii "2") = .ok (ascii "a") := by
    decide!
  have h3 : ([upperA, lowerA].map (fun m => m.Commitment.OriginalSenderNodeID)).Nodup := by
    decide
  have h4 : ascii "2" ≠ [] := by decide
  refine ⟨h3, List.Perm.swap _ _ _, h4, h1, h2, ?_⟩
  rw [h1, h2]
  decide

/-- C1 (amended): for every non-empty list of commitments whose sender
identifiers are pairwise distinct after lower-casing, every non-empty secret
and every permutation of the list, `WinnerSelection` returns the same winner
for the permuted list as for the original one. -/
theorem C1_order_invariance_lower_distinct (L : GoLib) (hs : SortContract L.sortSlice)
    (miners shuffled : List ActiveMiner) (hp : shuffled.Perm miners) (hne : miners ≠ [])
    (hn : (miners.map
      (fun m => ToLower L.unicodeLower m.Commitment.OriginalSenderNodeID)).Nodup)
    (secret : GoString) (hsec : secret ≠ []) :
    (∃ w, WinnerSelection L miners secret = .ok w) ∧
      WinnerSelection L shuffled secret = WinnerSelection L miners secret := by
  obtain ⟨w, h1, h2⟩ :=
    winnerSelection_perm_invariant L L rfl hs hs miners shuffled hp hne hn secret hsec
  exact ⟨⟨w, h2⟩, h1.trans h2.symm⟩

theorem C1_order_invariance_lower_distinct_witness :
    [vectorA, vector0x1, vectorB].Perm [vector0x1, vectorB, vectorA] ∧
    ((∃ w, WinnerSelection smallLib [vector0x1, vectorB, vectorA] (ascii "secret") = .ok w) ∧
      WinnerSelection smallLib [vectorA, vector0x1, vectorB] (ascii "secret") =
        WinnerSelection smallLib [vector0x1, vectorB, vectorA] (ascii "secret")) :=
  have hp : [vectorA, vector0x1, vectorB].Perm [vector0x1, vectorB, vectorA] :=
    (List.perm_append_comm : ([vectorA] ++ [vector0x1, vectorB]).Perm _)
  ⟨hp, C1_order_invariance_lower_distinct smallLib sortContract_smallLib
    [vector0x1, vectorB, vectorA] [vectorA, vector0x1, vectorB] hp (by decide) (by decide)
    (ascii "secret") (by decide)⟩

/-- C2 (counterexample): for the commitments `"0x1"`, `"B"`, `"a"` the sorting
step of `WinnerSelection` yields `["0x1", "a", "B"]`, not `["0x1", "B", "a"]`:
the comparison lower-cases both sides, so `"a"` orders before `"B"`. -/
theorem C2_sorted_order_counterexample :
    sortedNodeIDStrings smallLib [vector0x1, vectorB, vectorA] =
      [ascii "0x1", ascii "a", ascii "B"] ∧
    sortedNodeIDStrings smallLib [vector0x1, vectorB, vectorA] ≠
      [ascii "0x1", ascii "B", ascii "a"] ∧
    (eligibleMinersSorted smallLib [vector0x1, vectorB, vectorA]).map
      (fun m => m.Commitment.OriginalSenderNodeID) ≠ [ascii "0x1", ascii "B", ascii "a"] := by
  decide

/-- C2 (amended): for three commitments with sender identifiers `"0x1"`, `"B"`
and `"a"`, in any input order and with any signature bytes, the sorting step
of `WinnerSelection` yields the identifier order `["0x1", "a", "B"]`, and
`eligibleMinersSorted` is in that order. -/
theorem C2_sorted_order_of_vector (L : GoLib) (hs : SortContract L.sortSlice)
    (miners : List ActiveMiner)
    (hp : (miners.map (fun m => m.Commitment.OriginalSenderNodeID)).Perm
      [ascii "0x1", ascii "B", ascii "a"]) :
    sortedNodeIDStrings L miners = [ascii "0x1", ascii "a", ascii "B"] ∧
    (eligibleMinersSorted L miners).map (fun m => m.Commitment.OriginalSenderNodeID) =
      [ascii "0x1", ascii "a", ascii "B"] := by
  have k1 : ToLower L.unicodeLower (ascii "0x1") = ascii "0x1" := rfl
  have k2 : ToLower L.unicodeLower (ascii "a") = ascii "a" := rfl
  have k3 : ToLower L.unicodeLower (ascii "B") = ascii "b" := rfl
  have hswap : ([ascii "0x1", ascii "B", ascii "a"] : List GoString).Perm
      [ascii "0x1", ascii "a", ascii "B"] := List.Perm.cons _ (List.Perm.swap _ _ _)
  have hperm : ([ascii "0x1", ascii "a", ascii "B"] : List GoString).Perm
      (sortedNodeIDStrings L miners) :=
    (((sortedNodeIDStrings_perm L hs miners).trans hp).trans hswap).symm
  have htarget : ([ascii "0x1", ascii "a", ascii "B"] : List GoString).Pairwise
      (fun a b => stringLess (ToLower L.unicodeLower b) (ToLower L.unicodeLower a) = false) := by
    simp only [List.pairwise_cons, List.mem_cons, List.mem_singleton, forall_eq_or_imp,
      forall_eq, k1, k2, k3, List.not_mem_nil, List.Pairwise.nil, false_imp_iff,
      implies_true, and_true]
    decide
  have hkeys : (([ascii "0x1", ascii "a", ascii "B"] : List GoString).map
      (ToLower L.unicodeLower)).Nodup := by
    simp only [List.map_cons, List.map_nil, k1, k2, k3]
    decide
  have hsorted : sortedNodeIDStrings L miners = [ascii "0x1", ascii "a", ascii "B"] :=
    (sorted_unique (ToLower L.unicodeLower) _ _ hperm htarget
      (sortedNodeIDStrings_sorted L hs miners) hkeys).symm
  have hids : (miners.map (fun m => m.Commitment.OriginalSenderNodeID)).Nodup :=
    hp.nodup_iff.mpr (by decide)
  exact ⟨hsorted, (eligibleMinersSorted_ids L hs miners hids).trans hsorted⟩

theorem C2_sorted_order_of_vector_witness :
    sortedNodeIDStrings smallLib [vectorA, vectorB, vector0x1] =
      [ascii "0x1", ascii "a", ascii "B"] ∧
    (eligibleMinersSorted smallLib [vectorA, vectorB, vector0x1]).map
      (fun m => m.Commitment.OriginalSenderNodeID) = [ascii "0x1", ascii "a", ascii "B"] :=
  C2_sorted_order_of_vector smallLib sortContract_smallLib [vectorA, vectorB, vector0x1]
    (by decide)

/-- C3: for every non-empty list of commitments and every non-empty secret,
`WinnerSelection` returns normally, and the identifier it returns is the
`OriginalSenderNodeID` of a commitment of the input list. -/
theorem C3_membership (L : GoLib) (hs : SortContract L.sortSlice)
    (miners : List ActiveMiner) (hne : miners ≠ []) (secret : GoString) (hsec : secret ≠ []) :
    ∃ w, WinnerSelection L miners secret = .ok w ∧
      ∃ m ∈ miners, m.Commitment.OriginalSenderNodeID = w := by
  obtain ⟨m, hm, hw⟩ := winnerSelection_ok L hs miners secret hne hsec
  exact ⟨_, hw, m, eligibleMinersSorted_subset L miners m hm, rfl⟩

theorem C3_membership_witness :
    ∃ w, WinnerSelection smallLib [upperA, lowerA, upperA] (ascii "s") = .ok w ∧
      ∃ m ∈ [upperA, lowerA, upperA], m.Commitment.OriginalSenderNodeID = w :=
  C3_membership smallLib sortContract_smallLib [upperA, lowerA, upperA] (by decide)
    (ascii "s") (by decide)

/-- C4: for an identity set with pairwise distinct identifiers and `R` rounds
(`R` a Go `int`), whenever the trial loop has tallied its `R` winners the
exported row has one cell per miner and the cells sum to exactly `R`; and the
loop does get there when the identity set is non-empty, every secret is
non-empty and signing succeeds. -/
theorem C4_row_sum (L : GoLib) (minerSlice : List Miner) (rounds : List RoundRandom)
    (hn : (minerSlice.map (fun m => m.NodeID)).Nodup) (hR : rounds.length < 2 ^ 63) :
    (∀ row, mainTrial L minerSlice rounds = .ok row →
      row.sum = (rounds.length : Int) ∧ row.length = minerSlice.length) ∧
    (SortContract L.sortSlice → minerSlice ≠ [] →
      (∀ r ∈ rounds, r.secretBytes ≠ []) →
      (∀ m ∈ minerSlice, ∀ msg, (L.Sign m.Priv msg).isSome = true) →
      ∃ row, mainTrial L minerSlice rounds = .ok row ∧ row.sum = (rounds.length : Int)) := by
  have hpart : ∀ row, mainTrial L minerSlice rounds = .ok row →
      row.sum = (rounds.length : Int) ∧ row.length = minerSlice.length := by
    intro row hrow
    unfold mainTrial at hrow
    split at hrow
    · cases hrow
    · rename_i leaderboard hloop
      injection hrow with hrow
      have hinit : Counts (fun _ => none) (fun k => ([] : List GoString).count k) := by
        intro k
        simp
      obtain ⟨ws, hlen, hmem, hc⟩ := trialLoop_counts L minerSlice rounds 0 (fun _ => none)
        leaderboard [] hinit (by simpa using hR) hloop
      have hmem2 : ∀ w ∈ ws, w ∈ minerSlice.map (fun m => m.NodeID) := by
        intro w hw
        rcases hmem w hw with h | h
        · cases h
        · exact h
      rw [← hrow, exportedRow_sum minerSlice leaderboard ws hn hmem2 hc, hlen]
      simp [exportedRow]
  refine ⟨hpart, ?_⟩
  intro hs hne hsec hsign
  obtain ⟨result, hres⟩ := trialLoop_ok L hs minerSlice hne hsign rounds hsec 0 (fun _ => none)
  have hrow : mainTrial L minerSlice rounds = .ok (exportedRow minerSlice result) := by
    unfold mainTrial
    rw [hres]
  exact ⟨_, hrow, (hpart _ hrow).1⟩

theorem C4_row_sum_witness :
    (sampleMiners.map (fun m => m.NodeID)).Nodup ∧ sampleRounds.length < 2 ^ 63 ∧
    ∃ row, mainTrial smallLib sampleMiners sampleRounds = .ok row ∧ row.sum = 2 :=
  have hn : (sampleMiners.map (fun m => m.NodeID)).Nodup := by decide
  have hR : sampleRounds.length < 2 ^ 63 := by decide
  ⟨hn, hR, (C4_row_sum smallLib sampleMiners sampleRounds hn hR).2 sortContract_smallLib
    (by decide) (by decide) (fun _ _ _ => rfl)⟩

/-- C5: for every commitment `m` and every non-empty secret, `WinnerSelection`
applied to `[m]` returns `m`'s `OriginalSenderNodeID`, whatever the secret and
the signature bytes are. -/
theorem C5_singleton (L : GoLib) (hs : SortContract L.sortSlice) (m : ActiveMiner)
    (secret : GoString) (hsec : secret ≠ []) :
    WinnerSelection L [m] secret = .ok m.Commitment.OriginalSenderNodeID := by
  obtain ⟨m2, hm2, hw⟩ := winnerSelection_ok L hs [m] secret (by simp) hsec
  have hmem := eligibleMinersSorted_subset L [m] m2 hm2
  rw [List.mem_singleton] at hmem
  rw [hw, hmem]

theorem C5_singleton_witness :
    ascii "reveal" ≠ [] ∧
    WinnerSelection smallLib [vectorB] (ascii "reveal") = .ok (ascii "B") :=
  ⟨by decide, C5_singleton smallLib sortContract_smallLib vectorB (ascii "reveal") (by decide)⟩

/-- C6: for every list of commitments, empty or not, and whatever the library
functions do, `WinnerSelection` called with the empty secret fails with the
precondition panic; the sort, the hash and the index computation play no part
in the result, and no identifier is returned. -/
theorem C6_empty_secret (L : GoLib) (miners : List ActiveMiner) :
    WinnerSelection L miners [] = .error .emptySecret ∧
      ∀ w, WinnerSelection L miners [] ≠ .ok w := by
  have h : WinnerSelection L miners [] = .error .emptySecret := rfl
  refine ⟨h, ?_⟩
  intro w hw
  rw [h] at hw
  cases hw

/-- C7: for commitments with pairwise distinct sender identifiers,
`eligibleMinersSorted` is a permutation of the input in ascending order of
lower-cased identifier, its length is the number of commitments, `c` is the
concatenation of the signatures in that order, and for a non-empty round and
secret the winner is the entry at the hash number modulo the number of
commitments. -/
theorem C7_sorted_list_and_modulus (L : GoLib) (hs : SortContract L.sortSlice)
    (miners : List ActiveMiner)
    (hn : (miners.map (fun m => m.Commitment.OriginalSenderNodeID)).Nodup) :
    (eligibleMinersSorted L miners).Perm miners ∧
    (eligibleMinersSorted L miners).Pairwise (fun a b =>
      stringLess (ToLower L.unicodeLower b.Commitment.OriginalSenderNodeID)
        (ToLower L.unicodeLower a.Commitment.OriginalSenderNodeID) = false) ∧
    (eligibleMinersSorted L miners).length = miners.length ∧
    concatenatedSigs L miners =
      ((eligibleMinersSorted L miners).map (fun o => o.Commitment.SigCommit)).flatten ∧
    (∀ secret, secret ≠ [] → miners ≠ [] →
      ∃ (aDec : Nat) (m : ActiveMiner),
        hashToNumber (concatenatedSigs L miners ++ secret) = .ok (aDec : Int) ∧
        (eligibleMinersSorted L miners)[aDec % miners.length]? = some m ∧
        WinnerSelection L miners secret = .ok m.Commitment.OriginalSenderNodeID) := by
  have hperm := eligibleMinersSorted_perm L hs miners hn
  have hlen : (eligibleMinersSorted L miners).length = miners.length := hperm.length_eq
  refine ⟨hperm, ?_, hlen, ?_, ?_⟩
  · have hsorted := sortedNodeIDStrings_sorted L hs miners
    rw [← eligibleMinersSorted_ids L hs miners hn, List.pairwise_map] at hsorted
    exact hsorted
  · rw [concatenatedSigs_eq]
    simp [sigsOf, List.flatMap]
  · intro secret hsec hne
    obtain ⟨v, _, hnum, hw⟩ := winnerSelection_eq L miners secret hsec
    obtain ⟨m, hm, hsel⟩ := selectWinner_ok _ (eligibleMinersSorted_ne_nil L hs miners hne) v
    rw [hlen] at hm
    exact ⟨v, m, hnum, hm, hw.trans hsel⟩

theorem C7_sorted_list_and_modulus_witness :
    eligibleMinersSorted smallLib [vectorB, vectorA, vector0x1] =
      [vector0x1, vectorA, vectorB] ∧
    (eligibleMinersSorted smallLib [vectorB, vectorA, vector0x1]).Perm
      [vectorB, vectorA, vector0x1] ∧
    (eligibleMinersSorted smallLib [vectorB, vectorA, vector0x1]).length = 3 ∧
    concatenatedSigs smallLib [vectorB, vectorA, vector0x1] =
      ((eligibleMinersSorted smallLib [vectorB, vectorA, vector0x1]).map
        (fun o => o.Commitment.SigCommit)).flatten :=
  have h := C7_sorted_list_and_modulus smallLib sortContract_smallLib
    [vectorB, vectorA, vector0x1] (by decide)
  ⟨by decide, h.1, h.2.2.1, h.2.2.2.1⟩

theorem selectWinner_ne_parseError (sorted : List ActiveMiner) (aDec : Int) (e : NumError) :
    selectWinner sorted aDec ≠ .error (.parseError e) := by
  by_cases h0 : sorted.length = 0
  · simp [selectWinner, h0]
  · simp only [selectWinner, if_neg h0]
    split_ifs
    · simp
    · split <;> simp

/-- C8: for every 32-byte digest, the first 15 characters of its lower-case hex
encoding parse as a base-16 signed 64-bit integer `aDec` with
`0 <= aDec < 2^60`, and `aDec % n` lies in `[0, n)` for every `n >= 1`; the
parse-error panic of `WinnerSelection` is never the result. -/
theorem C8_hash_to_integer (d : Bytes) (hlen : d.length = 32) (hb : ∀ b ∈ d, b < 256) :
    (∃ aDec : Int, (Hash.mk (some d)).GetString = .ok (EncodeToString d) ∧
      ParseInt ((EncodeToString d).take 15) 16 64 = .ok aDec ∧
      0 ≤ aDec ∧ aDec < 2 ^ 60 ∧
      ∀ n : Nat, 1 ≤ n → 0 ≤ Int.tmod aDec (n : Int) ∧ Int.tmod aDec (n : Int) < (n : Int)) ∧
    (∀ (L : GoLib) (miners : List ActiveMiner) (secret : GoString) (e : NumError),
      WinnerSelection L miners secret ≠ .error (.parseError e)) := by
  constructor
  · obtain ⟨v, hv, _, hparse⟩ := parseInt_digest d (by omega) hb
    refine ⟨(v : Int), rfl, hparse, by omega, by exact_mod_cast hv, ?_⟩
    intro n hn
    rw [← Int.ofNat_tmod]
    have : v % n < n := Nat.mod_lt _ (by omega)
    omega
  · intro L miners secret e h
    by_cases hsec : secret = []
    · subst hsec
      cases h
    · obtain ⟨v, _, _, hw⟩ := winnerSelection_eq L miners secret hsec
      rw [hw] at h
      exact selectWinner_ne_parseError _ _ e h

theorem C8_hash_to_integer_witness :
    ∃ aDec : Int, (Hash.mk (some (List.replicate 32 0xFF))).GetString =
        .ok (EncodeToString (List.replicate 32 0xFF)) ∧
      ParseInt ((EncodeToString (List.replicate 32 0xFF)).take 15) 16 64 = .ok aDec ∧
      0 ≤ aDec ∧ aDec < 2 ^ 60 ∧
      ∀ n : Nat, 1 ≤ n → 0 ≤ Int.tmod aDec (n : Int) ∧ Int.tmod aDec (n : Int) < (n : Int) :=
  (C8_hash_to_integer (List.replicate 32 0xFF) (by decide) (by decide)).1

/-- C9: for every non-empty list of commitments whose sender identifiers are
pairwise distinct after lower-casing, every non-empty secret and every
permutation of the list, `WinnerSelection` returns the same winner for the
permuted list as for the original list, even when the two calls use different
sorting algorithms, each only bound by the contract of `sort.Slice`. -/
theorem C9_order_invariance_any_sort (L₁ L₂ : GoLib)
    (hul : L₁.unicodeLower = L₂.unicodeLower)
    (hs₁ : SortContract L₁.sortSlice) (hs₂ : SortContract L₂.sortSlice)
    (miners shuffled : List ActiveMiner) (hp : shuffled.Perm miners) (hne : miners ≠ [])
    (hn : (miners.map
      (fun m => ToLower L₁.unicodeLower m.Commitment.OriginalSenderNodeID)).Nodup)
    (secret : GoString) (hsec : secret ≠ []) :
    ∃ w, WinnerSelection L₁ shuffled secret = .ok w ∧
      WinnerSelection L₂ miners secret = .ok w ∧
      ∃ m ∈ miners, m.Commitment.OriginalSenderNodeID = w := by
  obtain ⟨w, h1, h2⟩ :=
    winnerSelection_perm_invariant L₁ L₂ hul hs₁ hs₂ miners shuffled hp hne hn secret hsec
  exact ⟨w, h1, h2, winnerSelection_mem L₂ miners secret w h2⟩

theorem sortContract_reversingLib : SortContract reversingLib.sortSlice :=
  fun less xs =>
    ⟨(insertionSortLessFunc_perm less xs.reverse).trans (List.reverse_perm xs),
      fun h => insertionSortLessFunc_sorted h xs.reverse⟩

theorem C9_order_invariance_any_sort_witness :
    ∃ w, WinnerSelection reversingLib [vectorA, vectorB, vector0x1] (ascii "r") = .ok w ∧
      WinnerSelection smallLib [vector0x1, vectorB, vectorA] (ascii "r") = .ok w ∧
      ∃ m ∈ [vector0x1, vectorB, vectorA], m.Commitment.OriginalSenderNodeID = w :=
  C9_order_invariance_any_sort reversingLib smallLib rfl sortContract_reversingLib
    sortContract_smallLib [vector0x1, vectorB, vectorA] [vectorA, vectorB, vector0x1]
    (List.reverse_perm [vector0x1, vectorB, vectorA]) (by decide) (by decide) (ascii "r")
    (by decide)

/-- C10: for every non-empty secret, `WinnerSelection` applied to the empty
list of commitments returns no identifier and fails at the index computation
with an integer division by zero; and `WinnerSelection` returns normally if and
only if the secret is non-empty and the commitment list is non-empty. -/
theorem C10_empty_commitment_list (L : GoLib) (hs : SortContract L.sortSlice) :
    (∀ secret, secret ≠ [] → WinnerSelection L [] secret = .error .divideByZero) ∧
    (∀ miners secret,
      (∃ w, WinnerSelection L miners secret = .ok w) ↔ (secret ≠ [] ∧ miners ≠ [])) := by
  have hempty : ∀ secret, secret ≠ [] → WinnerSelection L [] secret = .error .divideByZero := by
    intro secret hsec
    obtain ⟨v, _, _, hw⟩ := winnerSelection_eq L [] secret hsec
    rw [hw, eligibleMinersSorted_nil L hs]
    rfl
  refine ⟨hempty, ?_⟩
  intro miners secret
  constructor
  · rintro ⟨w, hw⟩
    have hsec : secret ≠ [] := by
      intro h0
      subst h0
      cases hw
    refine ⟨hsec, ?_⟩
    intro h0
    subst h0
    rw [hempty secret hsec] at hw
    cases hw
  · rintro ⟨hsec, hne⟩
    obtain ⟨m, _, hw⟩ := winnerSelection_ok L hs miners secret hne hsec
    exact ⟨_, hw⟩

theorem C10_empty_commitment_list_witness :
    WinnerSelection smallLib [] (ascii "s") = .error .divideByZero ∧
    ((∃ w, WinnerSelection smallLib [lowerA] (ascii "s") = .ok w) ↔
      (ascii "s" ≠ [] ∧ [lowerA] ≠ [])) :=
  have h := C10_empty_commitment_list smallLib sortContract_smallLib
  ⟨h.1 (ascii "s") (by decide), h.2 [lowerA] (ascii "s")⟩

end Dftws
